import Mathlib

/-!
Verification of the environment-naming pipeline of `environment_manager.py`
(`generate_new_name`, `_clean_existing_versions`,
`_extract_package_versions_from_yaml`, `_add_package_versions_to_name`).

Names are modelled as `List Char`.  Python regular-expression substitutions
are modelled by hand-derived matchers: for every pattern of the source the
matcher computes, at a given position, the length of the (unique, after
greedy matching with backtracking) match of that pattern, and a driver
replays `re.sub`'s left-to-right non-overlapping scan.  Python's `$`
(which also matches just before a final newline), the lookahead `(?=_|$)`
and the backreferences of `_(\d+)\.(\d+)_py\1\2` are reproduced exactly.
`str.lower` is modelled on the ASCII range.
-/

namespace EnvMgr

/-- Python `str.lower` on one ASCII character (`re.IGNORECASE` folding). -/
def lcChar (c : Char) : Char :=
  if 'A' ≤ c ∧ c ≤ 'Z' then Char.ofNat (c.toNat + 32) else c

/-- Python `str.lower` on a name. -/
def lowerL (s : List Char) : List Char := s.map lcChar

/-- `\d` of the regular expressions. -/
def isDig (c : Char) : Bool := '0' ≤ c && c ≤ '9'

/-- Length of the maximal digit run at the head of `s` (greedy `\d*`). -/
def digitsRun (s : List Char) : Nat := (s.takeWhile isDig).length

/-- Length matched by a greedy `(\.\d+)?` at the head of `s` (0 when absent). -/
def fracLen (s : List Char) : Nat :=
  match s with
  | '.' :: r => let d := digitsRun r; if d == 0 then 0 else 1 + d
  | _ => 0

/-- Python `$` without `re.MULTILINE`: end of string, or just before a final
newline. `s` is the part of the string after the current position. -/
def atEOL (s : List Char) : Bool :=
  match s with
  | [] => true
  | [c] => c == '\n'
  | _ => false

/-- Matcher for `_py\d+(\.\d+)?` (IGNORECASE). -/
def mUPy (s : List Char) : Option Nat :=
  match s with
  | '_' :: c1 :: c2 :: r =>
      if lcChar c1 == 'p' && lcChar c2 == 'y' then
        let d := digitsRun r
        if d == 0 then none else some (3 + d + fracLen (r.drop d))
      else none
  | _ => none

/-- Matcher for `_python\d+(\.\d+)?` (IGNORECASE). -/
def mUPython (s : List Char) : Option Nat :=
  match s with
  | '_' :: c1 :: c2 :: c3 :: c4 :: c5 :: c6 :: r =>
      if lcChar c1 == 'p' && lcChar c2 == 'y' && lcChar c3 == 't' && lcChar c4 == 'h'
          && lcChar c5 == 'o' && lcChar c6 == 'n' then
        let d := digitsRun r
        if d == 0 then none else some (7 + d + fracLen (r.drop d))
      else none
  | _ => none

/-- Matcher for `_r\d+(\.\d+)?` (IGNORECASE). -/
def mUR (s : List Char) : Option Nat :=
  match s with
  | '_' :: c1 :: r =>
      if lcChar c1 == 'r' then
        let d := digitsRun r
        if d == 0 then none else some (2 + d + fracLen (r.drop d))
      else none
  | _ => none

/-- Matcher for `_r_?\d+(\.\d+)?` (IGNORECASE).  The optional `_` is taken
greedily; if no digits follow it the regex backtracks, but then `\d+` would
have to match the `_` itself, so the whole pattern fails. -/
def mURU (s : List Char) : Option Nat :=
  match s with
  | '_' :: c1 :: r =>
      if lcChar c1 == 'r' then
        match r with
        | '_' :: r2 =>
            let d := digitsRun r2
            if d == 0 then none else some (3 + d + fracLen (r2.drop d))
        | _ =>
            let d := digitsRun r
            if d == 0 then none else some (2 + d + fracLen (r.drop d))
      else none
  | _ => none

/-- Matcher for `py\d+(\.\d+)?$` (IGNORECASE). -/
def mPyEnd (s : List Char) : Option Nat :=
  match s with
  | c1 :: c2 :: r =>
      if lcChar c1 == 'p' && lcChar c2 == 'y' then
        let d := digitsRun r
        if d == 0 then none
        else
          let r2 := r.drop d
          if atEOL r2 then some (2 + d)
          else
            let f := fracLen r2
            if f > 0 && atEOL (r2.drop f) then some (2 + d + f) else none
      else none
  | _ => none

/-- Matcher for `python\d+(\.\d+)?$` (IGNORECASE). -/
def mPythonEnd (s : List Char) : Option Nat :=
  match s with
  | c1 :: c2 :: c3 :: c4 :: c5 :: c6 :: r =>
      if lcChar c1 == 'p' && lcChar c2 == 'y' && lcChar c3 == 't' && lcChar c4 == 'h'
          && lcChar c5 == 'o' && lcChar c6 == 'n' then
        let d := digitsRun r
        if d == 0 then none
        else
          let r2 := r.drop d
          if atEOL r2 then some (6 + d)
          else
            let f := fracLen r2
            if f > 0 && atEOL (r2.drop f) then some (6 + d + f) else none
      else none
  | _ => none

/-- Matcher for `r\d+(\.\d+)?$` (IGNORECASE). -/
def mREnd (s : List Char) : Option Nat :=
  match s with
  | c1 :: r =>
      if lcChar c1 == 'r' then
        let d := digitsRun r
        if d == 0 then none
        else
          let r2 := r.drop d
          if atEOL r2 then some (1 + d)
          else
            let f := fracLen r2
            if f > 0 && atEOL (r2.drop f) then some (1 + d + f) else none
      else none
  | _ => none

/-- The lookahead `(?=_|$)`. -/
def boundaryUE (s : List Char) : Bool :=
  match s with
  | '_' :: _ => true
  | _ => atEOL s

/-- Matcher for `_\d+\.\d+(?=_|$)`. -/
def mUNumDotNum (s : List Char) : Option Nat :=
  match s with
  | '_' :: r =>
      let d1 := digitsRun r
      if d1 == 0 then none
      else
        match r.drop d1 with
        | '.' :: r2 =>
            let d2 := digitsRun r2
            if d2 == 0 then none
            else if boundaryUE (r2.drop d2) then some (1 + d1 + 1 + d2) else none
        | _ => none
  | _ => none

/-- Matcher for `_v\d+$` (IGNORECASE). -/
def mUV (s : List Char) : Option Nat :=
  match s with
  | '_' :: c1 :: r =>
      if lcChar c1 == 'v' then
        let d := digitsRun r
        if d > 0 && atEOL (r.drop d) then some (2 + d) else none
      else none
  | _ => none

/-- Matcher for `_(\d+)\.(\d+)_py\1\2` (IGNORECASE): both digit groups are
forced to their maximal runs (each is followed by a non-digit literal), and
the backreferences must then repeat them verbatim. -/
def mDupPy (s : List Char) : Option Nat :=
  match s with
  | '_' :: r =>
      let d1 := digitsRun r
      if d1 == 0 then none
      else
        let g1 := r.take d1
        match r.drop d1 with
        | '.' :: r2 =>
            let d2 := digitsRun r2
            if d2 == 0 then none
            else
              let g2 := r2.take d2
              match r2.drop d2 with
              | '_' :: c1 :: c2 :: r3 =>
                  if lcChar c1 == 'p' && lcChar c2 == 'y' && (g1 ++ g2).isPrefixOf r3 then
                    some (1 + d1 + 1 + d2 + 3 + d1 + d2)
                  else none
              | _ => none
        | _ => none
  | _ => none

/-- Matcher for `_(\d+)\.(\d+)_r\1\2` (IGNORECASE). -/
def mDupR (s : List Char) : Option Nat :=
  match s with
  | '_' :: r =>
      let d1 := digitsRun r
      if d1 == 0 then none
      else
        let g1 := r.take d1
        match r.drop d1 with
        | '.' :: r2 =>
            let d2 := digitsRun r2
            if d2 == 0 then none
            else
              let g2 := r2.take d2
              match r2.drop d2 with
              | '_' :: c1 :: r3 =>
                  if lcChar c1 == 'r' && (g1 ++ g2).isPrefixOf r3 then
                    some (1 + d1 + 1 + d2 + 2 + d1 + d2)
                  else none
              | _ => none
        | _ => none
  | _ => none

/-- `re.sub(pattern, '', s)`: scan left to right; at a match, delete it and
continue after it, otherwise keep the character.  The fuel is the length of
the string; every step consumes at least one character (all matchers return
positive lengths), so the fuel never runs out. -/
def reSubDel (m : List Char → Option Nat) : Nat → List Char → List Char
  | _, [] => []
  | 0, s => s
  | fuel + 1, c :: rest =>
      match m (c :: rest) with
      | some k => reSubDel m fuel (rest.drop (k - 1))
      | none => c :: reSubDel m fuel rest

/-- `re.sub(pattern, '', s)` with enough fuel. -/
def reSubD (m : List Char → Option Nat) (s : List Char) : List Char :=
  reSubDel m s.length s

/-- `re.sub(r'_+', '_', s)`: collapse each run of underscores to one
underscore (keeping the last of each doubled pair yields the same string). -/
def collapseUnders : List Char → List Char
  | [] => []
  | [c] => [c]
  | c1 :: c2 :: rest =>
      if c1 == '_' && c2 == '_' then collapseUnders (c2 :: rest)
      else c1 :: collapseUnders (c2 :: rest)

/-- Remove the maximal trailing run of characters satisfying `p`. -/
def dropTrailWhile (p : Char → Bool) : List Char → List Char
  | [] => []
  | c :: rest =>
      match dropTrailWhile p rest with
      | [] => if p c then [] else [c]
      | r => c :: r

/-- Python `str.strip(chars)` for a single-predicate character class. -/
def pyStrip (p : Char → Bool) (s : List Char) : List Char :=
  dropTrailWhile p (s.dropWhile p)

/-- Python whitespace for `str.strip()` (ASCII range). -/
def isSpaceC (c : Char) : Bool :=
  c == ' ' || c == '\t' || c == '\n' || c == '\r' || c == '\x0b' || c == '\x0c'

/-- Python `str.strip()` (ASCII range). -/
def stripWS (s : List Char) : List Char := pyStrip isSpaceC s

/-- `_clean_existing_versions`: apply the eleven substitutions in source
order, collapse runs of `_`, strip `_` from both ends, and fall back to the
original name when the result is shorter than two characters. -/
def clean_existing_versions (name : List Char) : List Char :=
  let c := reSubD mUPy name
  let c := reSubD mUPython c
  let c := reSubD mUR c
  let c := reSubD mURU c
  let c := reSubD mPyEnd c
  let c := reSubD mPythonEnd c
  let c := reSubD mREnd c
  let c := reSubD mUNumDotNum c
  let c := reSubD mUV c
  let c := reSubD mDupPy c
  let c := reSubD mDupR c
  let c := pyStrip (fun x => x == '_') (collapseUnders c)
  if c.length < 2 then name else c

/-- Python `pat in s` (substring test). -/
def isSubstr (pat : List Char) : List Char → Bool
  | [] => pat.isEmpty
  | c :: r => pat.isPrefixOf (c :: r) || isSubstr pat r

/-- Python `s.split(sep)` for a one-character separator.  Never returns the
empty list (`''.split(sep) == ['']`). -/
def splitSep (sep : Char) : List Char → List (List Char)
  | [] => [[]]
  | c :: r =>
      if c == sep then [] :: splitSep sep r
      else
        match splitSep sep r with
        | [] => [[c]]
        | h :: t => (c :: h) :: t

/-- Python `s.replace(pat, '')` for a non-empty `pat`: left-to-right
non-overlapping removal.  Fuel is the length of `s`. -/
def removeAllF (pat : List Char) : Nat → List Char → List Char
  | _, [] => []
  | 0, s => s
  | fuel + 1, c :: rest =>
      if pat.isPrefixOf (c :: rest) then removeAllF pat fuel (rest.drop (pat.length - 1))
      else c :: removeAllF pat fuel rest

/-- Python `s.replace(pat, '')` for a non-empty `pat`. -/
def removeAll (pat s : List Char) : List Char := removeAllF pat s.length s

/-- A parsed YAML value, as returned by `yaml.safe_load`. -/
inductive Yaml where
  | nullV : Yaml
  | boolV : Bool → Yaml
  | intV : Int → Yaml
  | strV : List Char → Yaml
  | listV : List Yaml → Yaml
  | mapV : List (List Char × Yaml) → Yaml

/-- Python truthiness of a parsed YAML value. -/
def yamlTruthy : Yaml → Bool
  | .nullV => false
  | .boolV b => b
  | .intV n => n != 0
  | .strV s => !s.isEmpty
  | .listV l => !l.isEmpty
  | .mapV m => !m.isEmpty

/-- Python `dict` key lookup (dict keys are unique; first match). -/
def yLookup (k : List Char) : List (List Char × Yaml) → Option Yaml
  | [] => none
  | (k2, v) :: rest => if k2 == k then some v else yLookup k rest

/-- The static `package_mappings` table of
`_extract_package_versions_from_yaml`. -/
def package_mappings : List (List Char × List (List Char)) := [
  ("scanpy".data, [("scanpy".data), ("scanpy-scripts".data)]),
  ("harmony".data, [("harmonypy".data), ("harmony-pytorch".data), ("harmony".data)]),
  ("scenic".data, [("pyscenic".data), ("scenic".data)]),
  ("seurat".data, [("rpy2".data), ("seurat".data)]),
  ("cistopic".data, [("pycistopic".data), ("cistopic".data)]),
  ("cellrank".data, [("cellrank".data)]),
  ("cellxgene".data, [("cellxgene".data)]),
  ("napari".data, [("napari".data)]),
  ("neuroglancer".data, [("neuroglancer".data)]),
  ("nextflow".data, [("nextflow".data)]),
  ("deeptools".data, [("deeptools".data)]),
  ("biopython".data, [("biopython".data), ("bio".data)]),
  ("elastix".data, [("elastix".data), ("itk-elastix".data)]),
  ("pytorch".data, [("pytorch".data), ("torch".data)]),
  ("tensorflow".data, [("tensorflow".data), ("tf".data)]),
  ("keras".data, [("keras".data)]),
  ("sklearn".data, [("scikit-learn".data), ("sklearn".data)]),
  ("pandas".data, [("pandas".data)]),
  ("numpy".data, [("numpy".data)]),
  ("scipy".data, [("scipy".data)]),
  ("matplotlib".data, [("matplotlib".data)]),
  ("plotly".data, [("plotly".data)]),
  ("jupyter".data, [("jupyter".data), ("jupyterlab".data)])]

/-- `dep.split('=')[0].split('[')[0].strip()` of the relevance pass. -/
def depBareName (dep : List Char) : List Char :=
  stripWS ((dep.takeWhile (fun c => !(c == '='))).takeWhile (fun c => !(c == '[')))

/-- A version-specifier operator character (`[=><]`). -/
def isOpC (c : Char) : Bool := c == '=' || c == '>' || c == '<'

/-- `re.split(r'[=><]', pip_dep)[0].strip()` of the relevance pass. -/
def pipBareName (dep : List Char) : List Char :=
  stripWS (dep.takeWhile (fun c => !(isOpC c)))

/-- The `dependencies` key of the manifest mapping. -/
def depsKey : List Char := "dependencies".data

/-- The `pip` key of a dependency dict entry. -/
def pipKey : List Char := "pip".data

/-- The packages of every topic whose keyword is a substring of the
lower-cased environment name. -/
def topicRelevant (envLower : List Char) : List (List Char) :=
  (package_mappings.filter (fun kv => isSubstr kv.1 envLower)).foldr
    (fun kv acc => kv.2 ++ acc) []

/-- `dep['pip']` when `dep` is a dict containing `pip` whose value is a
truthy list (the `if pip_deps and isinstance(pip_deps, list)` guard). -/
def pipListOf (m : List (List Char × Yaml)) : Option (List Yaml) :=
  match yLookup pipKey m with
  | some (Yaml.listV l) => if l.isEmpty then none else some l
  | _ => none

/-- Second half of the relevance pass: bare package names of manifest
entries that are substrings of the lower-cased environment name. -/
def mentionAdds (envLower : List Char) (deps : List Yaml) : List (List Char) :=
  deps.foldl (fun acc dep =>
    match dep with
    | Yaml.strV d =>
        let pkg := depBareName d
        if isSubstr (lowerL pkg) envLower then acc ++ [pkg] else acc
    | Yaml.mapV m =>
        match pipListOf m with
        | some l =>
            l.foldl (fun acc2 pd =>
              match pd with
              | Yaml.strV d =>
                  let pkg := pipBareName d
                  if isSubstr (lowerL pkg) envLower then acc2 ++ [pkg] else acc2
              | _ => acc2) acc
        | none => acc
    | _ => acc) []

/-- `pkg_name.lower() in [p.lower() for p in relevant_packages]`. -/
def relMember (rel : List (List Char)) (pkg : List Char) : Bool :=
  (rel.map lowerL).contains (lowerL pkg)

/-- The relevance test of the conda branch, including the `r-`/`py-`
prefix handling. -/
def condaMatchRelevant (rel : List (List Char)) (pkg : List Char) : Bool :=
  if relMember rel pkg then true
  else if ("r-".data).isPrefixOf (lowerL pkg) then relMember rel (pkg.drop 2)
  else if ("py-".data).isPrefixOf (lowerL pkg) then relMember rel (pkg.drop 3)
  else false

/-- The stored key: lower-cased name with a leading `r-` or `py-` removed. -/
def basePkgName (pkg : List Char) : List Char :=
  let low := lowerL pkg
  if ("r-".data).isPrefixOf low then low.drop 2
  else if ("py-".data).isPrefixOf low then low.drop 3
  else low

/-- Python `dict` assignment `d[k] = v`: update in place, else append. -/
def dictInsert (d : List (List Char × List Char)) (k v : List Char) :
    List (List Char × List Char) :=
  if d.any (fun kv => kv.1 == k) then d.map (fun kv => if kv.1 == k then (k, v) else kv)
  else d ++ [(k, v)]

/-- Backtracking for the `[=><]+` of `re.match(r'([^=><]+)[=><]+(.+)', s)`:
`r` starts with the maximal operator run; try operator-run lengths downward
until `.+` can match at least one non-newline character. -/
def pipBacktrack (g1 r : List Char) : Nat → Option (List Char × List Char)
  | 0 => none
  | t + 1 =>
      match r.drop (t + 1) with
      | [] => pipBacktrack g1 r t
      | c :: rest =>
          if c == '\n' then pipBacktrack g1 r t
          else some (g1, (c :: rest).takeWhile (fun x => !(x == '\n')))

/-- `re.match(r'([^=><]+)[=><]+(.+)', pip_dep)` returning the two groups. -/
def pipVerMatch (s : List Char) : Option (List Char × List Char) :=
  let g1 := s.takeWhile (fun c => !(isOpC c))
  if g1.isEmpty then none
  else
    let r := s.drop g1.length
    if r.isEmpty then none
    else pipBacktrack g1 r (r.takeWhile isOpC).length

/-- The version-recording pass over the dependency entries. -/
def versionPass (rel : List (List Char)) (deps : List Yaml) :
    List (List Char × List Char) :=
  deps.foldl (fun pv dep =>
    match dep with
    | Yaml.strV d =>
        let parts := splitSep '=' d
        if 2 ≤ parts.length then
          let pkg := stripWS (parts.headD [])
          let ver := stripWS ((parts.drop 1).headD [])
          if condaMatchRelevant rel pkg then dictInsert pv (basePkgName pkg) ver else pv
        else pv
    | Yaml.mapV m =>
        match pipListOf m with
        | some l =>
            l.foldl (fun pv2 pd =>
              match pd with
              | Yaml.strV d =>
                  match pipVerMatch d with
                  | some (p, v) =>
                      let pkg := stripWS p
                      let ver := stripWS v
                      if relMember rel pkg then dictInsert pv2 (lowerL pkg) ver else pv2
                  | none => pv2
              | _ => pv2) pv
        | none => pv
    | _ => pv) []

/-- `_extract_package_versions_from_yaml` on the parsed manifest content. -/
def extract_package_versions_from_yaml (envData : Yaml) (envName : List Char) :
    List (List Char × List Char) :=
  if !(yamlTruthy envData) then []
  else
    match envData with
    | Yaml.mapV m =>
        match yLookup depsKey m with
        | some (Yaml.listV deps) =>
            let envLower := lowerL envName
            let rel := topicRelevant envLower ++ mentionAdds envLower deps
            versionPass rel deps
        | some Yaml.nullV => []
        | some _ => []
        | none => []
    | _ => []

/-- `'a' in version or 'b' in version or 'rc' in version or 'dev' in version`. -/
def hasAlphaMarker (v : List Char) : Bool :=
  v.contains 'a' || v.contains 'b' || isSubstr ("rc".data) v || isSubstr ("dev".data) v

/-- `[a-zA-Z]`. -/
def isAlphaC (c : Char) : Bool := ('a' ≤ c && c ≤ 'z') || ('A' ≤ c && c ≤ 'Z')

/-- `[0-9.]`. -/
def isDigDot (c : Char) : Bool := isDig c || c == '.'

/-- `re.match(r'([0-9.]+)([a-zA-Z]+[0-9]*)', version)` returning
(numeric part, suffix): all runs are greedy and the pattern is unanchored
at the right, so trailing characters are ignored. -/
def alphaVerMatch (v : List Char) : Option (List Char × List Char) :=
  let num := v.takeWhile isDigDot
  if num.isEmpty then none
  else
    let r := v.drop num.length
    let letters := r.takeWhile isAlphaC
    if letters.isEmpty then none
    else some (num, letters ++ (r.drop letters.length).takeWhile isDig)

/-- Join the first up-to-3 dot-separated components, then the suffix
(the `len(version_parts)` cascade of the source, including its
unreachable `"0"` fallback for an empty list). -/
def joinParts3 (parts : List (List Char)) (suffix : List Char) : List Char :=
  match parts with
  | p0 :: p1 :: p2 :: _ => p0 ++ p1 ++ p2 ++ suffix
  | [p0, p1] => p0 ++ p1 ++ suffix
  | [p0] => p0 ++ suffix
  | [] => '0' :: suffix

/-- The version-to-token step of `_add_package_versions_to_name` (the
Suffix Formatter): pre-release versions keep their alphanumeric suffix,
plain versions are reduced to digits. -/
def formatVersionToken (version : List Char) : List Char :=
  if hasAlphaMarker version then
    match alphaVerMatch version with
    | some (num, suffix) => joinParts3 (splitSep '.' num) suffix
    | none => removeAll (".".data) version
  else (joinParts3 (splitSep '.' version) []).filter isDig

/-- The full suffix token `pkg_name + clean_version`. -/
def formatSuffixTok (pkg version : List Char) : List Char :=
  pkg ++ formatVersionToken version

/-- The four `pkg_variations` of `_add_package_versions_to_name`
(`replace` removes every occurrence, `split('-')[0]` keeps the first
segment). -/
def codeVariations (pkg : List Char) : List (List Char) :=
  let low := lowerL pkg
  [low, removeAll ("py".data) low, removeAll ("r-".data) low,
    low.takeWhile (fun c => !(c == '-'))]

/-- `package_in_name`: some variation is a substring of the lower-cased
base name and longer than two characters. -/
def pkgMatchesBase (baseName pkg : List Char) : Bool :=
  (codeVariations pkg).any (fun v => isSubstr v (lowerL baseName) && 2 < v.length)

/-- Python string `<` (lexicographic on code points). -/
def strLtL : List Char → List Char → Bool
  | [], [] => false
  | [], _ :: _ => true
  | _ :: _, [] => false
  | a :: as, b :: bs =>
      if a.toNat < b.toNat then true
      else if b.toNat < a.toNat then false
      else strLtL as bs

/-- Insertion into a list sorted by key. -/
def insSorted (x : List Char × List Char) :
    List (List Char × List Char) → List (List Char × List Char)
  | [] => [x]
  | y :: rest => if strLtL x.1 y.1 then x :: y :: rest else y :: insSorted x rest

/-- `sorted(package_versions.items())` (keys are distinct, so sorting by
key matches sorting the pairs). -/
def sortPkgs (l : List (List Char × List Char)) : List (List Char × List Char) :=
  l.foldr insSorted []

/-- `'_'.join(added_versions)`. -/
def joinUnders : List (List Char) → List Char
  | [] => []
  | [x] => x
  | x :: rest => x ++ '_' :: joinUnders rest

/-- `_add_package_versions_to_name`. -/
def add_package_versions_to_name (baseName : List Char)
    (pv : List (List Char × List Char)) : List Char :=
  if pv.isEmpty then baseName
  else
    let added := ((sortPkgs pv).take 2).foldl (fun acc kv =>
      if pkgMatchesBase baseName kv.1 then acc ++ [formatSuffixTok kv.1 kv.2] else acc) []
    if added.isEmpty then baseName
    else baseName ++ '_' :: joinUnders added

/-- The character of one decimal digit. -/
def digCh : Nat → Char
  | 0 => '0' | 1 => '1' | 2 => '2' | 3 => '3' | 4 => '4'
  | 5 => '5' | 6 => '6' | 7 => '7' | 8 => '8' | _ => '9'

/-- Decimal digits of `n`, most significant first, with fuel (structural so
that it reduces in the kernel; fuel `n + 1` always suffices). -/
def natDigitsAux : Nat → Nat → List Char → List Char
  | 0, _, acc => acc
  | fuel + 1, n, acc =>
      if n < 10 then digCh n :: acc
      else natDigitsAux fuel (n / 10) (digCh (n % 10) :: acc)

/-- Decimal digits of `n`, most significant first (Python `f"{n}"`). -/
def natDigits (n : Nat) : List Char := natDigitsAux (n + 1) n []

/-- The candidate `f"{original_new_name}_v{counter}"`. -/
def vCand (base : List Char) (n : Nat) : List Char :=
  base ++ '_' :: 'v' :: natDigits n

/-- The loop guard `new_name in existing_names or new_name == old_name.lower()`. -/
def isConflict (existing : List (List Char)) (oldLower cand : List Char) : Bool :=
  existing.any (fun e => e == cand) || cand == oldLower

/-- The conflict loop from a given counter, with fuel. -/
def resolveAux (base oldLower : List Char) (existing : List (List Char)) :
    Nat → Nat → List Char
  | _, 0 => base
  | counter, fuel + 1 =>
      let c := vCand base counter
      if isConflict existing oldLower c then
        resolveAux base oldLower existing (counter + 1) fuel
      else c

/-- The conflict-resolution step of `generate_new_name`.  The fuel
`existing.length + 2` always suffices: the candidates are pairwise
distinct and at most `existing.length + 1` strings can conflict. -/
def resolveConflicts (newName oldLower : List Char) (existing : List (List Char)) :
    List Char :=
  if isConflict existing oldLower newName then
    resolveAux newName oldLower existing 1 (existing.length + 2)
  else newName

/-- Decimal reading of a digit string, folded from an accumulator (left
inverse of `natDigitsAux`, used to prove injectivity of `natDigits`). -/
def decodeFrom (a : Nat) (s : List Char) : Nat :=
  s.foldl (fun x c => x * 10 + (c.toNat - 48)) a

/-- `generate_new_name`.  The manifest is the parsed content of the YAML
file (`none` when no file is supplied or it does not exist). -/
def generate_new_name (oldName : List Char) (pythonVersion rVersion : Option (List Char))
    (existingNames : Option (List (List Char))) (manifest : Option Yaml) : List Char :=
  let existing := existingNames.getD []
  let baseName := lowerL oldName
  let cleanedBase := clean_existing_versions baseName
  let packageVersions : List (List Char × List Char) :=
    match manifest with
    | some y => extract_package_versions_from_yaml y oldName
    | none => []
  let n1 := if packageVersions.isEmpty then cleanedBase
            else add_package_versions_to_name cleanedBase packageVersions
  let n2 := match pythonVersion with
    | some pv => if pv.isEmpty then n1 else n1 ++ '_' :: 'p' :: 'y' :: removeAll (".".data) pv
    | none => n1
  let n3 := match rVersion with
    | some rv => if rv.isEmpty then n2 else n2 ++ '_' :: 'r' :: removeAll (".".data) rv
    | none => n2
  resolveConflicts n3 (lowerL oldName) existing

/-- Whether the string contains two adjacent underscores. -/
def hasDoubleUnder : List Char → Bool
  | [] => false
  | [_] => false
  | c1 :: c2 :: r => (c1 == '_' && c2 == '_') || hasDoubleUnder (c2 :: r)

/-- Whether the string starts with an underscore. -/
def headIsUnder : List Char → Bool
  | [] => false
  | c :: _ => c == '_'

/-- Whether the string ends with an underscore. -/
def lastIsUnder : List Char → Bool
  | [] => false
  | [c] => c == '_'
  | _ :: c :: r => lastIsUnder (c :: r)

/-- The four package-name variations as claim C5 words them: the bare
name, the name with a _trailing_ `py` removed, the name with a _leading_
`r-` removed, and the first `-`-separated segment.  (The source instead
removes _every_ occurrence of `py` resp. `r-`.) -/
def specVariations (pkg : List Char) : List (List Char) :=
  [pkg,
    (if ("py".data).isSuffixOf pkg then pkg.take (pkg.length - 2) else pkg),
    (if ("r-".data).isPrefixOf pkg then pkg.drop 2 else pkg),
    pkg.takeWhile (fun c => !(c == '-'))]

/-- Manifest content that is empty, not a mapping, or whose
`dependencies` entry is absent, `null` or not a sequence (the malformed
shapes named by claim C6). -/
def malformedEnvData : Yaml → Bool
  | Yaml.mapV m =>
      !(yamlTruthy (Yaml.mapV m)) ||
        (match yLookup depsKey m with
         | some (Yaml.listV _) => false
         | some Yaml.nullV => true
         | some _ => true
         | none => true)
  | _ => true

/-- A conda-style dependency entry pinning `pkg` at `ver`, with or
without a build segment. -/
def condaPin (pkg ver entry : List Char) : Prop :=
  entry = pkg ++ '=' :: ver ∨ ∃ b, entry = pkg ++ '=' :: (ver ++ '=' :: b)

/-- The manifest of the claim C5 example, harmonypy pinned at 0.0.9 and
scanpy at 1.8.0, both as conda strings. -/
def manifestHarmonyScanpy : Yaml :=
  Yaml.mapV [(("dependencies".data),
    Yaml.listV [Yaml.strV ("harmonypy=0.0.9".data), Yaml.strV ("scanpy=1.8.0".data)])]

/-! Lemmas about the conflict-resolution loop. -/

lemma digCh_val (d : Nat) (h : d < 10) : (digCh d).toNat - 48 = d := by
  interval_cases d <;> rfl

lemma decodeFrom_natDigitsAux (fuel : Nat) :
    ∀ n acc, n < fuel → decodeFrom 0 (natDigitsAux fuel n acc) = decodeFrom n acc := by
  induction fuel with
  | zero => intro n acc h; exact absurd h (Nat.not_lt_zero n)
  | succ fuel ih =>
      intro n acc h
      by_cases h10 : n < 10
      · simp only [natDigitsAux, if_pos h10, decodeFrom, List.foldl_cons]
        rw [digCh_val n h10]
        norm_num
      · simp only [natDigitsAux, if_neg h10]
        rw [ih (n / 10) _ (by omega)]
        simp only [decodeFrom, List.foldl_cons]
        rw [digCh_val (n % 10) (by omega)]
        have hx : n / 10 * 10 + n % 10 = n := by omega
        rw [hx]

lemma decode_natDigits (n : Nat) : decodeFrom 0 (natDigits n) = n := by
  have h := decodeFrom_natDigitsAux (n + 1) n [] (Nat.lt_succ_self n)
  simpa [natDigits, decodeFrom] using h

lemma natDigits_inj : Function.Injective natDigits := by
  intro a b h
  rw [← decode_natDigits a, ← decode_natDigits b, h]

lemma vCand_inj (base : List Char) : Function.Injective (vCand base) := by
  intro a b h
  unfold vCand at h
  have h2 := List.append_cancel_left h
  injection h2 with _ h3
  injection h3 with _ h4
  exact natDigits_inj h4

lemma exists_free_cand (base oldLower : List Char) (existing : List (List Char)) :
    ∃ k, k < existing.length + 2 ∧
      isConflict existing oldLower (vCand base (1 + k)) = false := by
  by_contra hcon
  push_neg at hcon
  have hall : ∀ k, k < existing.length + 2 →
      isConflict existing oldLower (vCand base (1 + k)) = true := by
    intro k hk
    cases h : isConflict existing oldLower (vCand base (1 + k)) with
    | false => exact absurd h (hcon k hk)
    | true => rfl
  have hnodup : ((List.range (existing.length + 2)).map
      (fun k => vCand base (1 + k))).Nodup := by
    apply List.Nodup.map
    · intro a b hab
      have := vCand_inj base hab
      omega
    · exact List.nodup_range _
  have hsub : ((List.range (existing.length + 2)).map (fun k => vCand base (1 + k)))
      ⊆ oldLower :: existing := by
    intro x hx
    simp only [List.mem_map, List.mem_range] at hx
    obtain ⟨k, hk, rfl⟩ := hx
    have hc := hall k hk
    simp only [isConflict, Bool.or_eq_true, List.any_eq_true, beq_iff_eq] at hc
    rcases hc with ⟨e, he, hee⟩ | heq
    · exact List.mem_cons_of_mem _ (hee ▸ he)
    · rw [heq]
      exact List.mem_cons_self _ _
  have hlen := (hnodup.subperm hsub).length_le
  simp only [List.length_map, List.length_range, List.length_cons] at hlen
  omega

lemma resolveAux_free (base oldLower : List Char) (existing : List (List Char)) :
    ∀ fuel counter,
      (∃ k, k < fuel ∧ isConflict existing oldLower (vCand base (counter + k)) = false) →
      isConflict existing oldLower (resolveAux base oldLower existing counter fuel) = false := by
  intro fuel
  induction fuel with
  | zero =>
      rintro counter ⟨k, hk, _⟩
      omega
  | succ fuel ih =>
      rintro counter ⟨k, hk, hfree⟩
      by_cases hc : isConflict existing oldLower (vCand base counter) = true
      · rw [show resolveAux base oldLower existing counter (fuel + 1)
            = resolveAux base oldLower existing (counter + 1) fuel from by
          simp [resolveAux, hc]]
        apply ih
        have hk0 : k ≠ 0 := by
          rintro rfl
          rw [Nat.add_zero] at hfree
          rw [hfree] at hc
          exact Bool.false_ne_true hc
        refine ⟨k - 1, by omega, ?_⟩
        rw [show counter + 1 + (k - 1) = counter + k from by omega]
        exact hfree
      · have hcf : isConflict existing oldLower (vCand base counter) = false := by
          cases h : isConflict existing oldLower (vCand base counter) with
          | false => rfl
          | true => exact absurd h hc
        rw [show resolveAux base oldLower existing counter (fuel + 1)
            = vCand base counter from by simp [resolveAux, hcf]]
        exact hcf

lemma resolveAux_first (base oldLower : List Char) (existing : List (List Char)) :
    ∀ fuel counter n, counter ≤ n → n < counter + fuel →
      (∀ m, counter ≤ m → m < n → isConflict existing oldLower (vCand base m) = true) →
      isConflict existing oldLower (vCand base n) = false →
      resolveAux base oldLower existing counter fuel = vCand base n := by
  intro fuel
  induction fuel with
  | zero =>
      intro counter n h1 h2 _ _
      omega
  | succ fuel ih =>
      intro counter n h1 h2 hall hfree
      by_cases he : counter = n
      · subst he
        simp [resolveAux, hfree]
      · have hc := hall counter (Nat.le_refl _) (by omega)
        rw [show resolveAux base oldLower existing counter (fuel + 1)
            = resolveAux base oldLower existing (counter + 1) fuel from by
          simp [resolveAux, hc]]
        exact ih (counter + 1) n (by omega) (by omega)
          (fun m hm1 hm2 => hall m (by omega) hm2) hfree

lemma resolveConflicts_free (newName oldLower : List Char) (existing : List (List Char)) :
    isConflict existing oldLower (resolveConflicts newName oldLower existing) = false := by
  unfold resolveConflicts
  by_cases h : isConflict existing oldLower newName = true
  · rw [if_pos h]
    apply resolveAux_free
    obtain ⟨k, hk, hfree⟩ := exists_free_cand newName oldLower existing
    exact ⟨k, by omega, hfree⟩
  · rw [if_neg h]
    cases hb : isConflict existing oldLower newName with
    | false => rfl
    | true => exact absurd hb h

/-! Lemmas about underscore normalization (for the cleaner invariant). -/

lemma collapse_head (c : Char) (r : List Char) :
    ∃ t, collapseUnders (c :: r) = c :: t := by
  induction r generalizing c with
  | nil => exact ⟨[], rfl⟩
  | cons c2 rest ih =>
      by_cases h : (c == '_' && c2 == '_') = true
      · obtain ⟨t, ht⟩ := ih c2
        have hc : c = c2 := by
          simp only [Bool.and_eq_true, beq_iff_eq] at h
          rw [h.1, h.2]
        rw [show collapseUnders (c :: c2 :: rest) = collapseUnders (c2 :: rest) from by
          simp [collapseUnders, h]]
        rw [ht, hc]
        exact ⟨t, rfl⟩
      · rw [show collapseUnders (c :: c2 :: rest) = c :: collapseUnders (c2 :: rest) from by
          simp [collapseUnders, h]]
        exact ⟨_, rfl⟩

lemma hasDouble_tail (c : Char) (r : List Char) (h : hasDoubleUnder (c :: r) = false) :
    hasDoubleUnder r = false := by
  cases r with
  | nil => rfl
  | cons c2 rest =>
      simp only [hasDoubleUnder, Bool.or_eq_false_iff] at h
      exact h.2

lemma hasDouble_collapse (s : List Char) : hasDoubleUnder (collapseUnders s) = false := by
  induction s with
  | nil => rfl
  | cons c1 s ih =>
      cases s with
      | nil => rfl
      | cons c2 rest =>
          by_cases h : (c1 == '_' && c2 == '_') = true
          · rw [show collapseUnders (c1 :: c2 :: rest) = collapseUnders (c2 :: rest) from by
              simp [collapseUnders, h]]
            exact ih
          · rw [show collapseUnders (c1 :: c2 :: rest) = c1 :: collapseUnders (c2 :: rest) from by
              simp [collapseUnders, h]]
            obtain ⟨t, ht⟩ := collapse_head c2 rest
            rw [ht]
            simp only [hasDoubleUnder, Bool.or_eq_false_iff]
            constructor
            · cases hb : (c1 == '_' && c2 == '_') with
              | false => rfl
              | true => exact absurd hb h
            · rw [← ht]
              exact ih

lemma hasDouble_dropWhile (p : Char → Bool) (s : List Char)
    (h : hasDoubleUnder s = false) : hasDoubleUnder (s.dropWhile p) = false := by
  induction s with
  | nil => rfl
  | cons c r ih =>
      rw [List.dropWhile_cons]
      by_cases hp : p c = true
      · rw [if_pos hp]
        exact ih (hasDouble_tail c r h)
      · rw [if_neg hp]
        exact h

lemma dropTrailWhile_pre_of (p : Char → Bool) (s : List Char) :
    ∃ t, dropTrailWhile p s ++ t = s := by
  induction s with
  | nil => exact ⟨[], rfl⟩
  | cons c r ih =>
      obtain ⟨t, ht⟩ := ih
      cases hd : dropTrailWhile p r with
      | nil =>
          by_cases hp : p c = true
          · exact ⟨c :: r, by simp [dropTrailWhile, hd, hp]⟩
          · exact ⟨r, by simp [dropTrailWhile, hd, hp]⟩
      | cons x xs =>
          refine ⟨t, ?_⟩
          have he : dropTrailWhile p (c :: r) = c :: x :: xs := by
            simp [dropTrailWhile, hd]
          rw [he, List.cons_append, ← hd, ht]

lemma hasDouble_of_append (a b : List Char) (h : hasDoubleUnder (a ++ b) = false) :
    hasDoubleUnder a = false := by
  induction a with
  | nil => rfl
  | cons c r ih =>
      cases r with
      | nil => rfl
      | cons c2 rest =>
          simp only [List.cons_append] at h
          simp only [hasDoubleUnder, Bool.or_eq_false_iff] at h ⊢
          refine ⟨h.1, ih ?_⟩
          rw [List.cons_append]
          exact h.2

lemma headUnder_dropWhile (s : List Char) :
    headIsUnder (s.dropWhile (fun c => c == '_')) = false := by
  induction s with
  | nil => rfl
  | cons c r ih =>
      rw [List.dropWhile_cons]
      by_cases hp : (c == '_') = true
      · rw [if_pos hp]
        exact ih
      · rw [if_neg hp]
        simp only [headIsUnder]
        cases hb : (c == '_') with
        | false => rfl
        | true => exact absurd hb hp

lemma headUnder_dropTrail (p : Char → Bool) (s : List Char)
    (h : headIsUnder s = false) : headIsUnder (dropTrailWhile p s) = false := by
  obtain ⟨t, ht⟩ := dropTrailWhile_pre_of p s
  cases hd : dropTrailWhile p s with
  | nil => rfl
  | cons x xs =>
      rw [hd] at ht
      rw [← ht] at h
      simp only [List.cons_append, headIsUnder] at h
      simp only [headIsUnder]
      exact h

lemma lastUnder_dropTrail (s : List Char) :
    lastIsUnder (dropTrailWhile (fun c => c == '_') s) = false := by
  induction s with
  | nil => rfl
  | cons c r ih =>
      cases hd : dropTrailWhile (fun c => c == '_') r with
      | nil =>
          by_cases hp : (c == '_') = true
          · rw [show dropTrailWhile (fun c => c == '_') (c :: r) = [] from by
              simp [dropTrailWhile, hd, hp]]
            rfl
          · rw [show dropTrailWhile (fun c => c == '_') (c :: r) = [c] from by
              simp [dropTrailWhile, hd, hp]]
            simp only [lastIsUnder]
            cases hb : (c == '_') with
            | false => rfl
            | true => exact absurd hb hp
      | cons x xs =>
          rw [show dropTrailWhile (fun c => c == '_') (c :: r) = c :: x :: xs from by
            simp [dropTrailWhile, hd]]
          rw [show lastIsUnder (c :: x :: xs) = lastIsUnder (x :: xs) from rfl]
          rw [← hd]
          exact ih

lemma normStage (name x : List Char) :
    (if (pyStrip (fun c => c == '_') (collapseUnders x)).length < 2 then name
      else pyStrip (fun c => c == '_') (collapseUnders x)) = name ∨
    (2 ≤ (if (pyStrip (fun c => c == '_') (collapseUnders x)).length < 2 then name
        else pyStrip (fun c => c == '_') (collapseUnders x)).length ∧
      hasDoubleUnder (if (pyStrip (fun c => c == '_') (collapseUnders x)).length < 2 then name
        else pyStrip (fun c => c == '_') (collapseUnders x)) = false ∧
      headIsUnder (if (pyStrip (fun c => c == '_') (collapseUnders x)).length < 2 then name
        else pyStrip (fun c => c == '_') (collapseUnders x)) = false ∧
      lastIsUnder (if (pyStrip (fun c => c == '_') (collapseUnders x)).length < 2 then name
        else pyStrip (fun c => c == '_') (collapseUnders x)) = false) := by
  by_cases h : (pyStrip (fun c => c == '_') (collapseUnders x)).length < 2
  · left
    rw [if_pos h]
  · right
    rw [if_neg h]
    refine ⟨by omega, ?_, ?_, ?_⟩
    · unfold pyStrip
      obtain ⟨t, ht⟩ := dropTrailWhile_pre_of (fun c => c == '_')
        ((collapseUnders x).dropWhile (fun c => c == '_'))
      apply hasDouble_of_append _ t
      rw [ht]
      exact hasDouble_dropWhile _ _ (hasDouble_collapse x)
    · unfold pyStrip
      exact headUnder_dropTrail _ _ (headUnder_dropWhile _)
    · unfold pyStrip
      exact lastUnder_dropTrail _

/-! Lemmas about splitting pinned dependency strings. -/

lemma splitSep_no_sep (sep : Char) (xs : List Char)
    (h : ∀ c ∈ xs, (c == sep) = false) :
    splitSep sep xs = [xs] := by
  induction xs with
  | nil => rfl
  | cons c xs ih =>
      have hc : (c == sep) = false := h c (List.mem_cons_self _ _)
      simp only [splitSep, hc]
      rw [ih (fun c2 hc2 => h c2 (List.mem_cons_of_mem _ hc2))]
      rfl

lemma splitSep_sep_append (sep : Char) (xs rest : List Char)
    (h : ∀ c ∈ xs, (c == sep) = false) :
    splitSep sep (xs ++ sep :: rest) = xs :: splitSep sep rest := by
  induction xs with
  | nil =>
      simp only [List.nil_append, splitSep, beq_self_eq_true]
      rfl
  | cons c xs ih =>
      have hc : (c == sep) = false := h c (List.mem_cons_self _ _)
      simp only [List.cons_append, List.append_eq, splitSep, hc]
      rw [ih (fun c2 hc2 => h c2 (List.mem_cons_of_mem _ hc2))]
      rfl

lemma takeWhile_append_of_all (p : Char → Bool) (xs : List Char) (y : Char) (r : List Char)
    (hall : ∀ c ∈ xs, p c = true) (hy : p y = false) :
    (xs ++ y :: r).takeWhile p = xs := by
  induction xs with
  | nil =>
      simp [List.takeWhile_cons, hy]
  | cons c xs ih =>
      simp only [List.cons_append, List.takeWhile_cons, hall c (List.mem_cons_self _ _),
        if_true]
      rw [ih (fun c2 h2 => hall c2 (List.mem_cons_of_mem _ h2))]

lemma condaPin_parts (pkg ver entry : List Char) (h : condaPin pkg ver entry)
    (hpkg : ∀ c ∈ pkg, (c == '=') = false) (hver : ∀ c ∈ ver, (c == '=') = false) :
    2 ≤ (splitSep '=' entry).length ∧
    (splitSep '=' entry).headD [] = pkg ∧
    ((splitSep '=' entry).drop 1).headD [] = ver := by
  rcases h with rfl | ⟨b, rfl⟩
  · rw [splitSep_sep_append _ _ _ hpkg, splitSep_no_sep _ _ hver]
    exact ⟨by simp, rfl, rfl⟩
  · rw [splitSep_sep_append _ _ _ hpkg, splitSep_sep_append _ _ _ hver]
    exact ⟨by simp, rfl, rfl⟩

lemma depBareName_pin (pkg ver entry : List Char) (h : condaPin pkg ver entry)
    (hpkg : ∀ c ∈ pkg, ((c == '=') = false)) :
    depBareName entry = stripWS (pkg.takeWhile (fun c => !(c == '['))) := by
  have hall : ∀ c ∈ pkg, (fun c => !(c == '=')) c = true := by
    intro c hc
    show (!(c == '=')) = true
    rw [hpkg c hc]
    rfl
  have hy : (fun c => !(c == '=')) '=' = false := rfl
  rcases h with rfl | ⟨b, rfl⟩
  · unfold depBareName
    rw [takeWhile_append_of_all _ _ _ _ hall hy]
  · unfold depBareName
    rw [takeWhile_append_of_all _ _ _ _ hall hy]

/-! The claim theorems. -/

/-- Claim C1, counterexample: with `old_name = "env_r4r2"`, no python
version, `r_version = "4R2"`, empty `existing_names` and no manifest,
`generate_new_name` returns `"env_r4R2"`, which is case-insensitively
equal to the old name (the loop only compares against the exact
lower-cased old name, and the `R` kept verbatim from the version string
defeats that comparison). -/
theorem C1_counterexample :
    generate_new_name ("env_r4r2".data) none (some ("4R2".data)) (some []) none
      = ("env_r4R2".data) ∧
    lowerL (generate_new_name ("env_r4r2".data) none (some ("4R2".data)) (some []) none)
      = lowerL ("env_r4r2".data) := by
  exact ⟨by decide, by decide⟩

/-- Claim C1, amended: for every `old_name`, finite `existing_names` list
and any optional python version, r version and manifest, the result of
`generate_new_name` is never an exact member of `existing_names` and never
exactly equal to the lower-cased `old_name` (the loop guard compares
exactly, not case-insensitively). -/
theorem C1_amended_conflict_freedom (old : List Char) (py r : Option (List Char))
    (existing : List (List Char)) (m : Option Yaml) :
    existing.any (fun e => e == generate_new_name old py r (some existing) m) = false ∧
    (generate_new_name old py r (some existing) m == lowerL old) = false := by
  have h : isConflict existing (lowerL old)
      (generate_new_name old py r (some existing) m) = false :=
    resolveConflicts_free _ _ _
  unfold isConflict at h
  exact Bool.or_eq_false_iff.mp h

/-- Claim C2: the cleaner is not idempotent.  On `"abpy3py4"` one
application yields `"abpy3"` (only the trailing `py4` is a `py\d+$`
match), but a second application then strips the newly trailing `py3`,
yielding `"ab"`. -/
theorem C2_clean_not_idempotent_on_abpy3py4 :
    clean_existing_versions ("abpy3py4".data) = ("abpy3".data) ∧
    clean_existing_versions (clean_existing_versions ("abpy3py4".data)) = ("ab".data) ∧
    (clean_existing_versions (clean_existing_versions ("abpy3py4".data))
        == clean_existing_versions ("abpy3py4".data)) = false := by
  exact ⟨by decide, by decide, by decide⟩

/-- Claim C4, counterexample: `clean("py_jjans_3.10_scanpy")` is not the
unchanged input: the `_3.10` token sits immediately before an underscore,
which is a trailing-token boundary of the pattern `_\d+\.\d+(?=_|$)`, so
it is stripped and the result is `"py_jjans_scanpy"`. -/
theorem C4_counterexample :
    clean_existing_versions ("py_jjans_3.10_scanpy".data) = ("py_jjans_scanpy".data) ∧
    (clean_existing_versions ("py_jjans_3.10_scanpy".data)
        == ("py_jjans_3.10_scanpy".data)) = false := by
  exact ⟨by decide, by decide⟩

/-- Claim C4, amended: version-marker tokens are stripped exactly at the
trailing-token boundaries (end of string or immediately before an
underscore); `"py_jjans_3.10_scanpy"` has `_3.10` before an underscore,
so cleaning strips it, giving `"py_jjans_scanpy"`, while a token embedded
before other characters, as in `"ab_3.10x"`, is kept unchanged. -/
theorem C4_amended_boundary_stripping :
    clean_existing_versions ("py_jjans_3.10_scanpy".data) = ("py_jjans_scanpy".data) ∧
    clean_existing_versions ("ab_3.10x".data) = ("ab_3.10x".data) := by
  exact ⟨by decide, by decide⟩

/-- Claim C7, counterexample: on the (malformed) empty version string the
formatter returns the bare package name, not `package_name + "0"`: the
`"0"` fallback branch is unreachable because `split('.')` never returns
an empty list. -/
theorem C7_counterexample :
    formatSuffixTok ("pycistopic".data) [] = ("pycistopic".data) ∧
    (formatSuffixTok ("pycistopic".data) [] == ("pycistopic0".data)) = false := by
  exact ⟨by decide, by decide⟩

/-- Claim C7, amended: `format_suffix("pycistopic", "2.0a0") =
"pycistopic20a0"`; the formatter is total and always returns the package
name followed by a (possibly empty) cleaned version token, so its worst
case on malformed versions is the bare package name. -/
theorem C7_amended_formatter :
    formatSuffixTok ("pycistopic".data) ("2.0a0".data) = ("pycistopic20a0".data) ∧
    (∀ pkg version : List Char, formatSuffixTok pkg version = pkg ++ formatVersionToken version) ∧
    (∀ pkg : List Char, formatSuffixTok pkg [] = pkg) := by
  refine ⟨by decide, fun pkg version => rfl, fun pkg => ?_⟩
  show pkg ++ formatVersionToken [] = pkg
  rw [show formatVersionToken [] = [] from by decide]
  exact List.append_nil pkg

/-- Claim C8: the conflict-resolution loop terminates: there is a counter
`n ≥ 1` whose candidate `_v{n}` is conflict-free (not in
`existing_names` and not the lower-cased old name, which is exactly
`isConflict ... = false`), every candidate `_v{m}` for `1 ≤ m < n`
conflicts, and the loop entered at counter 1 returns that candidate. -/
theorem C8_conflict_loop_terminates (base oldLower : List Char)
    (existing : List (List Char)) :
    ∃ n, 1 ≤ n ∧ isConflict existing oldLower (vCand base n) = false ∧
      ((List.range' 1 (n - 1)).all fun m =>
        isConflict existing oldLower (vCand base m)) = true ∧
      resolveAux base oldLower existing 1 (existing.length + 2) = vCand base n := by
  obtain ⟨k, hk, hfree⟩ := exists_free_cand base oldLower existing
  have hex : ∃ n, 1 ≤ n ∧ isConflict existing oldLower (vCand base n) = false :=
    ⟨1 + k, by omega, hfree⟩
  classical
  refine ⟨Nat.find hex, (Nat.find_spec hex).1, (Nat.find_spec hex).2, ?_, ?_⟩
  · rw [List.all_eq_true]
    intro m hm
    rw [List.mem_range'_1] at hm
    have hmlt : m < Nat.find hex := by omega
    have hnot := Nat.find_min hex hmlt
    show isConflict existing oldLower (vCand base m) = true
    cases hcv : isConflict existing oldLower (vCand base m) with
    | true => rfl
    | false => exact absurd ⟨by omega, hcv⟩ hnot
  · have hle : Nat.find hex ≤ 1 + k := Nat.find_min' hex ⟨by omega, hfree⟩
    apply resolveAux_first
    · exact (Nat.find_spec hex).1
    · omega
    · intro m hm1 hm2
      have hnot := Nat.find_min hex hm2
      cases hcv : isConflict existing oldLower (vCand base m) with
      | true => rfl
      | false => exact absurd ⟨hm1, hcv⟩ hnot
    · exact (Nat.find_spec hex).2

/-- Claim C9: `generate_new_name` with `existing_names = None` behaves
exactly as with the empty list: the two calls are definitionally the same
computation. -/
theorem C9_none_existing_names (old : List Char) (py r : Option (List Char))
    (m : Option Yaml) :
    generate_new_name old py r none m = generate_new_name old py r (some []) m := rfl

/-- Claim C10: for every input string the cleaner either returns the input
verbatim (the too-short fallback) or a string of length at least two with
no doubled underscore that neither starts nor ends with an underscore. -/
theorem C10_clean_normalization_invariant (s : List Char) :
    clean_existing_versions s = s ∨
    (2 ≤ (clean_existing_versions s).length ∧
      hasDoubleUnder (clean_existing_versions s) = false ∧
      headIsUnder (clean_existing_versions s) = false ∧
      lastIsUnder (clean_existing_versions s) = false) :=
  normStage s (reSubD mDupR (reSubD mDupPy (reSubD mUV (reSubD mUNumDotNum (reSubD mREnd
    (reSubD mPythonEnd (reSubD mPyEnd (reSubD mURU (reSubD mUR (reSubD mUPython
      (reSubD mUPy s)))))))))))

/-- Claim C5, counterexample: for package `"pyharmony"` the assembler
appends a suffix to base `"harmony_integration"` (the source variation
`replace('py','')` removes the _leading_ `py`, giving `"harmony"`), yet
none of the four variations as the claim words them (bare name, trailing
`py` removed, leading `r-` removed, first `-`-segment) is a long-enough
substring of the base. -/
theorem C5_counterexample :
    add_package_versions_to_name ("harmony_integration".data)
      [(("pyharmony".data), ("1.0".data))]
      = ("harmony_integration_pyharmony10".data) ∧
    ((specVariations ("pyharmony".data)).all
      (fun v => !(isSubstr v (lowerL ("harmony_integration".data)) && decide (2 < v.length))))
      = true := by
  exact ⟨by decide, by decide⟩

/-- Claim C5, amended: for a single-package mapping the assembler appends
the package suffix if and only if one of the four source variations of
the package name — the bare lower-cased name, the name with _every_
occurrence of `py` removed, the name with _every_ occurrence of `r-`
removed, and the first `-`-separated segment — is longer than two
characters and a case-insensitive substring of the base name (only the
first two sorted packages are considered at all); and the harmony
example produces `"harmony_integration_harmonypy009_py310"`. -/
theorem C5_amended_variation_rule :
    (∀ base pkg ver : List Char,
      (add_package_versions_to_name base [(pkg, ver)]
          = base ++ '_' :: formatSuffixTok pkg ver) ↔
        (∃ v ∈ codeVariations pkg, isSubstr v (lowerL base) = true ∧ 2 < v.length)) ∧
    generate_new_name ("harmony_integration".data) (some ("3.10".data)) none (some [])
      (some manifestHarmonyScanpy)
      = ("harmony_integration_harmonypy009_py310".data) := by
  constructor
  · intro base pkg ver
    have hun : add_package_versions_to_name base [(pkg, ver)] =
        if pkgMatchesBase base pkg then base ++ '_' :: formatSuffixTok pkg ver else base := by
      by_cases h : pkgMatchesBase base pkg = true
      · simp [add_package_versions_to_name, sortPkgs, insSorted, joinUnders, h]
      · simp [add_package_versions_to_name, sortPkgs, insSorted, joinUnders, h]
    rw [hun]
    by_cases h : pkgMatchesBase base pkg = true
    · rw [if_pos h]
      constructor
      · intro _
        simpa only [pkgMatchesBase, List.any_eq_true, Bool.and_eq_true,
          decide_eq_true_eq] using h
      · intro _
        rfl
    · rw [if_neg h]
      constructor
      · intro heq
        exfalso
        have hlen := congrArg List.length heq
        simp only [List.length_append, List.length_cons] at hlen
        omega
      · intro hex
        exfalso
        apply h
        simp only [pkgMatchesBase, List.any_eq_true, Bool.and_eq_true, decide_eq_true_eq]
        obtain ⟨v, hv, hs, hl⟩ := hex
        exact ⟨v, hv, hs, hl⟩
  · decide

/-- Claim C6: on malformed manifest content — empty or non-mapping
content, or a `dependencies` entry that is absent, null or not a
sequence — the extractor returns the empty mapping (no exception can
arise: every such shape is handled by an explicit early return). -/
theorem C6_extractor_total_on_malformed (y : Yaml) (name : List Char)
    (h : malformedEnvData y = true) :
    extract_package_versions_from_yaml y name = [] := by
  cases y with
  | nullV => rfl
  | boolV b => cases b <;> rfl
  | intV n =>
      unfold extract_package_versions_from_yaml
      split
      · rfl
      · rfl
  | strV s =>
      unfold extract_package_versions_from_yaml
      split
      · rfl
      · rfl
  | listV l =>
      unfold extract_package_versions_from_yaml
      split
      · rfl
      · rfl
  | mapV m =>
      unfold extract_package_versions_from_yaml
      by_cases ht : yamlTruthy (Yaml.mapV m) = true
      · have hcond : (!(yamlTruthy (Yaml.mapV m))) = false := by rw [ht]; rfl
        rw [hcond, if_neg Bool.false_ne_true]
        dsimp only
        simp only [malformedEnvData] at h
        rw [ht] at h
        simp only [Bool.not_true, Bool.false_or] at h
        cases hl : yLookup depsKey m with
        | none => rfl
        | some v =>
            rw [hl] at h
            cases v with
            | listV deps => simp at h
            | nullV => rfl
            | boolV b => rfl
            | intV n => rfl
            | strV s => rfl
            | mapV mm => rfl
      · have hcond : (!(yamlTruthy (Yaml.mapV m))) = true := by
          cases hv : yamlTruthy (Yaml.mapV m) with
          | false => rfl
          | true => exact absurd hv ht
        rw [hcond, if_pos rfl]

/-- Witness for claim C6 at the concrete malformed manifest `null`. -/
theorem C6_extractor_total_on_malformed_witness :
    malformedEnvData Yaml.nullV = true ∧
    extract_package_versions_from_yaml Yaml.nullV ("scanpy_analysis".data) = [] :=
  ⟨rfl, C6_extractor_total_on_malformed Yaml.nullV ("scanpy_analysis".data) rfl⟩

/-- Claim C3: for any manifest whose dependency list consists of a conda
entry pinning scanpy at 1.9.1 and one pinning pandas at 1.4.4 (in either
order, with or without build segments, other manifest keys arbitrary),
`generate_new_name("scanpy_analysis", "3.10", None, [], manifest)`
returns exactly `"scanpy_analysis_scanpy191_py310"`: scanpy contributes
a suffix because `"scanpy"` is a substring of the name, pandas
contributes none, and the python suffix follows the package suffix. -/
theorem C3_naming_example (d1 d2 : List Char)
    (h1 : condaPin ("scanpy".data) ("1.9.1".data) d1)
    (h2 : condaPin ("pandas".data) ("1.4.4".data) d2)
    (deps : List Yaml)
    (hdeps : deps = [Yaml.strV d1, Yaml.strV d2] ∨ deps = [Yaml.strV d2, Yaml.strV d1])
    (rest : List (List Char × Yaml)) :
    generate_new_name ("scanpy_analysis".data) (some ("3.10".data)) none (some [])
      (some (Yaml.mapV ((("dependencies".data), Yaml.listV deps) :: rest)))
      = ("scanpy_analysis_scanpy191_py310".data) := by
  have hp1 := condaPin_parts _ _ _ h1 (by decide) (by decide)
  have hp2 := condaPin_parts _ _ _ h2 (by decide) (by decide)
  have hb1 : depBareName d1 = ("scanpy".data) := by
    rw [depBareName_pin _ _ _ h1 (by decide)]
    decide
  have hb2 : depBareName d2 = ("pandas".data) := by
    rw [depBareName_pin _ _ _ h2 (by decide)]
    decide
  have hex : extract_package_versions_from_yaml
      (Yaml.mapV ((("dependencies".data), Yaml.listV deps) :: rest))
      ("scanpy_analysis".data)
      = [(("scanpy".data), ("1.9.1".data))] := by
    unfold extract_package_versions_from_yaml
    rw [show (!(yamlTruthy (Yaml.mapV ((("dependencies".data), Yaml.listV deps) :: rest))))
        = false from rfl]
    simp only [Bool.false_eq_true, if_false]
    rw [show yLookup depsKey ((("dependencies".data), Yaml.listV deps) :: rest)
        = some (Yaml.listV deps) from by
      simp only [yLookup, show (("dependencies".data) == depsKey) = true from by decide,
        if_true]]
    rcases hdeps with rfl | rfl
    · simp only [mentionAdds, versionPass, List.foldl_cons, List.foldl_nil]
      simp only [hb1, hb2, hp1.2.1, hp1.2.2, hp2.2.1, hp2.2.2,
        if_pos hp1.1, if_pos hp2.1]
      decide
    · simp only [mentionAdds, versionPass, List.foldl_cons, List.foldl_nil]
      simp only [hb1, hb2, hp1.2.1, hp1.2.2, hp2.2.1, hp2.2.2,
        if_pos hp1.1, if_pos hp2.1]
      decide
  simp only [generate_new_name]
  rw [hex]
  decide

/-- Witness for claim C3 at the concrete manifest with dependency list
`["scanpy=1.9.1", "pandas=1.4.4"]`. -/
theorem C3_naming_example_witness :
    generate_new_name ("scanpy_analysis".data) (some ("3.10".data)) none (some [])
      (some (Yaml.mapV [(("dependencies".data), Yaml.listV
        [Yaml.strV ("scanpy=1.9.1".data), Yaml.strV ("pandas=1.4.4".data)])]))
      = ("scanpy_analysis_scanpy191_py310".data) :=
  C3_naming_example ("scanpy=1.9.1".data) ("pandas=1.4.4".data)
    (Or.inl (by decide)) (Or.inl (by decide))
    [Yaml.strV ("scanpy=1.9.1".data), Yaml.strV ("pandas=1.4.4".data)]
    (Or.inl rfl) []

end EnvMgr
